import Mathlib

/-!
Verification model of the blueprint compiler (cpollet/blueprint).

The Rust source is embedded shallowly: machine integers `i32` are modelled
as `Int` (the claims under study assume no arithmetic overflow), `usize` as
`Nat`, `Vec` as `List`, `HashMap` as an association list, and the fatal
`exit(1)` path of the resolver as `Except String`.
-/

namespace Blueprintlib

/-- Colors, from `domain.rs` (`enum Color`). -/
inductive Color where
  | Transparent
  | White
  | Black
  | Red
  | Green
  | Blue
  | Yellow
  | Magenta
  | Cyan
  | Custom (rgba : Nat × Nat × Nat × Nat)
  deriving DecidableEq, Repr

/-- Model of `type RgbaColor = (u8, u8, u8, u8)` from `domain.rs`. -/
abbrev RgbaColor := Nat × Nat × Nat × Nat

/-- Model of `Color::as_rgba` from `domain.rs`. -/
def Color.as_rgba : Color → RgbaColor
  | .Transparent => (0, 0, 0, 0)
  | .White => (255, 255, 255, 255)
  | .Black => (0, 0, 0, 255)
  | .Red => (255, 0, 0, 255)
  | .Green => (0, 255, 0, 255)
  | .Blue => (0, 0, 255, 255)
  | .Yellow => (255, 255, 0, 255)
  | .Magenta => (255, 0, 255, 255)
  | .Cyan => (0, 255, 255, 255)
  | .Custom c => c

/-- Model of `impl TryFrom<&str> for Color` from `domain.rs` (identical in `main.rs`);
`Err(())` is modelled as `none`. -/
def Color.tryFromStr : String → Option Color
  | "transparent" => some .Transparent
  | "white" => some .White
  | "black" => some .Black
  | "red" => some .Red
  | "green" => some .Green
  | "blue" => some .Blue
  | "yellow" => some .Yellow
  | "magenta" => some .Magenta
  | "cyan" => some .Cyan
  | _ => none

/-- Model of `struct Point<T>` from `domain.rs` / `main.rs`. -/
structure Point (α : Type) where
  x : α
  y : α
  deriving DecidableEq, Repr

/-- Model of `struct Edge<T>` (field `from` is a Lean keyword, hence guillemets);
the attribute list `Attributes { attributes: Vec<Attribute> }` with the
single variant `Attribute::Color` is flattened to `List Color`. -/
structure Edge (α : Type) where
  «from» : Point α
  «to» : Point α
  attr : List Color
  deriving DecidableEq, Repr

/-- Model of `Edge::new` from `domain.rs`. -/
def Edge.new (x1 y1 x2 y2 : α) (color : Color) : Edge α :=
  { «from» := ⟨x1, y1⟩, «to» := ⟨x2, y2⟩, attr := [color] }

/-- Model of `Edge::color`: the first `Color` attribute, defaulting to black. -/
def Edge.color (e : Edge α) : Color :=
  (e.attr.head?).getD .Black

/-- Model of `struct Shape<T>` from `domain.rs` / `main.rs`. -/
structure Shape (α : Type) where
  edges : List (Edge α)
  deriving DecidableEq, Repr

/-- Model of `struct Blueprint<T>` from `domain.rs` / `main.rs`. -/
structure Blueprint (α : Type) where
  shapes : List (Shape α)
  deriving DecidableEq, Repr

/-! ## Resolver / interpreter, from `main.rs` (`fn main`, lines 11-101)

The resolver walks each parsed shape, pairing consecutive coordinates into
edges.  The `exit(1)` taken on an unknown tag reference is modelled as
`Except.error` carrying the tag name; `println!` logging is dropped.  The
`start` byte offset carried by the parser's `EdgeStart` is used only for
diagnostics and is not modelled. -/

/-- Model of `enum Coord` from `parser.rs` (string slices become `String`). -/
inductive Coord where
  | Absolute (x y : Int) (tag : Option String)
  | Relative (x y : Int) (tag : Option String)
  | Reference (tag : String)
  deriving DecidableEq, Repr

/-- Model of `struct EdgeStart` from `parser.rs`; the attribute `HashMap` is an
association list queried with first-match lookup. -/
structure EdgeStart where
  coord : Coord
  attributes : List (String × String)
  deriving DecidableEq, Repr

/-- Model of `struct Node<T>` from `main.rs`. -/
structure Node where
  point : Point Int
  deriving DecidableEq, Repr

/-- Model of `Node::new` from `main.rs`. -/
def Node.new (x y : Int) : Node := ⟨⟨x, y⟩⟩

/-- Model of `Node::add` from `main.rs`. -/
def Node.add (n : Node) (dx dy : Int) : Node := ⟨⟨n.point.x + dx, n.point.y + dy⟩⟩

/-- The `points: HashMap<&str, Node>` of `main`, as an association list;
`insert` conses (later bindings shadow earlier ones, as in `HashMap`). -/
abbrev TagMap := List (String × Node)

/-- Resolution of the `from` half of a coordinate pair (`main.rs` lines
31-48).  Note the swapped `Node::new(*y, *x)` fallback taken when a
`Relative` coordinate is the first of its shape. -/
def resolveFrom (points : TagMap) (nodes : List Node) :
    Coord → Except String (Node × Option String)
  | .Absolute x y tag => .ok (Node.new x y, tag)
  | .Relative x y tag =>
      .ok (((nodes.getLast?).map (fun last => last.add x y)).getD (Node.new y x), tag)
  | .Reference tag =>
      match points.lookup tag with
      | some n => .ok (n, none)
      | none => .error tag

/-- Resolution of the `to` half of a coordinate pair (`main.rs` lines
55-67); same as `resolveFrom` but the tag is discarded. -/
def resolveTo (points : TagMap) (nodes : List Node) :
    Coord → Except String Node
  | .Absolute x y _ => .ok (Node.new x y)
  | .Relative x y _ =>
      .ok (((nodes.getLast?).map (fun last => last.add x y)).getD (Node.new y x))
  | .Reference tag =>
      match points.lookup tag with
      | some n => .ok n
      | none => .error tag

/-- The attribute key consumed by the resolver. -/
def colorKey : String := "color"

/-- The edge color computation of `main.rs` lines 69-73: the `color`
attribute parsed via `Color::try_from`, defaulting to black when the key is
absent or the name unknown. -/
def edgeColor (attributes : List (String × String)) : Color :=
  ((attributes.lookup colorKey).map (fun s => (Color.tryFromStr s).getD .Black)).getD .Black

/-- The inner loop of `main` (lines 26-82): walk the zipped list of
consecutive coordinate pairs, resolving `from` (binding its tag) and `to`,
and appending one edge per pair. -/
def resolvePairs (points : TagMap) (nodes : List Node) (edges : List (Edge Int)) :
    List (EdgeStart × EdgeStart) → Except String (TagMap × List (Edge Int))
  | [] => .ok (points, edges)
  | (a, b) :: rest =>
      match resolveFrom points nodes a.coord with
      | .error u => .error u
      | .ok (fromNode, tag) =>
        let nodes' := nodes ++ [fromNode]
        let points' := match tag with
          | some t => (t, fromNode) :: points
          | none => points
        match resolveTo points' nodes' b.coord with
        | .error u => .error u
        | .ok toNode =>
          let color := edgeColor a.attributes
          resolvePairs points' nodes'
            (edges ++
              [Edge.new fromNode.point.x fromNode.point.y toNode.point.x toNode.point.y color])
            rest

/-- The outer loop of `main` (lines 18-85): empty shapes are skipped
(`continue`), each non-empty shape contributes `Shape::from(edges)` built
from its consecutive coordinate pairs. -/
def resolveShapes (points : TagMap) (shapes : List (Shape Int)) :
    List (List EdgeStart) → Except String (TagMap × List (Shape Int))
  | [] => .ok (points, shapes)
  | es :: rest =>
      if es.isEmpty then resolveShapes points shapes rest
      else
        match resolvePairs points [] [] (es.zip es.tail) with
        | .error u => .error u
        | .ok (points', edges) => resolveShapes points' (shapes ++ [⟨edges⟩]) rest

/-- The whole resolution pass of `main`, from parsed shapes to the signed
blueprint (before `translate_to_origin`). -/
def resolveDoc (doc : List (List EdgeStart)) : Except String (Blueprint Int) :=
  (resolveShapes [] [] doc).map (fun r => ⟨r.2⟩)

/-! ## Geometry engine, from `domain.rs` -/

/-- Model of `i32::MAX` (the claims assume no `i32` overflow, so coordinates live in
`Int`; the extremal constants only seed the bounding-box fold). -/
def i32MAX : Int := 2 ^ 31 - 1

/-- Model of `i32::MIN`. -/
def i32MIN : Int := -(2 ^ 31)

/-- Model of `Point::top_left` from `domain.rs`. -/
def Point.top_left (p q : Point Int) : Point Int := ⟨min p.x q.x, min p.y q.y⟩

/-- Model of `Point::bottom_right` from `domain.rs`. -/
def Point.bottom_right (p q : Point Int) : Point Int := ⟨max p.x q.x, max p.y q.y⟩

/-- Model of `impl Bound<i32> for &Edge<i32>` from `domain.rs`. -/
def Edge.boundaries (e : Edge Int) : Point Int × Point Int :=
  (⟨min e.«from».x e.«to».x, min e.«from».y e.«to».y⟩,
   ⟨max e.«from».x e.«to».x, max e.«from».y e.«to».y⟩)

/-- The combining step of the `impl<I, E> Bound<i32> for I` fold. -/
def boundCombine (acc b : Point Int × Point Int) : Point Int × Point Int :=
  (acc.1.top_left b.1, acc.2.bottom_right b.2)

/-- The generic bounding-box fold of `impl<I, E> Bound<i32> for I`, starting
from the sentinel pair `(Point::MAX, Point::MIN)` and folding
`top_left`/`bottom_right` componentwise. -/
def boundariesFold (l : List (Point Int × Point Int)) : Point Int × Point Int :=
  l.foldl boundCombine (⟨i32MAX, i32MAX⟩, ⟨i32MIN, i32MIN⟩)

/-- Model of `impl Bound<i32> for &Shape<i32>`. -/
def Shape.boundaries (s : Shape Int) : Point Int × Point Int :=
  boundariesFold (s.edges.map Edge.boundaries)

/-- Model of `impl Bound<i32> for &Blueprint<i32>`. -/
def Blueprint.boundaries (bp : Blueprint Int) : Point Int × Point Int :=
  boundariesFold (bp.shapes.map Shape.boundaries)

/-- Model of `impl Translate for Point<i32>`. -/
def Point.translate (p : Point Int) (dx dy : Int) : Point Int := ⟨p.x + dx, p.y + dy⟩

/-- Model of `impl Translate for Edge<i32>`. -/
def Edge.translate (e : Edge Int) (dx dy : Int) : Edge Int :=
  { e with «from» := e.«from».translate dx dy, «to» := e.«to».translate dx dy }

/-- Model of `impl Translate for Shape<i32>`. -/
def Shape.translate (s : Shape Int) (dx dy : Int) : Shape Int :=
  ⟨s.edges.map (fun e => e.translate dx dy)⟩

/-- Model of `impl Translate for Blueprint<i32>`. -/
def Blueprint.translate (bp : Blueprint Int) (dx dy : Int) : Blueprint Int :=
  ⟨bp.shapes.map (fun s => s.translate dx dy)⟩

/-- Model of `Blueprint::translate_to_origin` from `domain.rs` lines 69-74. -/
def Blueprint.translate_to_origin (bp : Blueprint Int) : Blueprint Int :=
  bp.translate (-bp.boundaries.1.x) (-bp.boundaries.1.y)

/-- Model of `impl TryFrom<Point<i32>> for Point<usize>` (`domain.rs` lines 447-459);
`Err(())` is `none`. -/
def Point.try_into (p : Point Int) : Option (Point Nat) :=
  if p.x < 0 ∨ p.y < 0 then none else some ⟨p.x.toNat, p.y.toNat⟩

/-- Model of `impl TryFrom<Edge<i32>> for Edge<usize>`. -/
def Edge.try_into (e : Edge Int) : Option (Edge Nat) :=
  match e.«from».try_into with
  | none => none
  | some f =>
      match e.«to».try_into with
      | none => none
      | some t => some { «from» := f, «to» := t, attr := e.attr }

/-- The edge loop of `impl TryFrom<Shape<i32>> for Shape<usize>`: push
converted edges in order, propagating the first failure with `?`. -/
def tryFromEdges : List (Edge Int) → Option (List (Edge Nat))
  | [] => some []
  | e :: rest =>
      match e.try_into with
      | none => none
      | some e' =>
          match tryFromEdges rest with
          | none => none
          | some rest' => some (e' :: rest')

/-- Model of `impl TryFrom<Shape<i32>> for Shape<usize>`. -/
def Shape.try_into (s : Shape Int) : Option (Shape Nat) :=
  (tryFromEdges s.edges).map Shape.mk

/-- The shape loop of `impl TryFrom<Blueprint<i32>> for Blueprint<usize>`. -/
def tryFromShapes : List (Shape Int) → Option (List (Shape Nat))
  | [] => some []
  | s :: rest =>
      match s.try_into with
      | none => none
      | some s' =>
          match tryFromShapes rest with
          | none => none
          | some rest' => some (s' :: rest')

/-- Model of `impl TryFrom<Blueprint<i32>> for Blueprint<usize>` (`domain.rs` lines
114-126). -/
def Blueprint.try_into (bp : Blueprint Int) : Option (Blueprint Nat) :=
  (tryFromShapes bp.shapes).map Blueprint.mk

/-! ## Canvas and rasterizer, from `main.rs` (`Canvas`) and `domain.rs`
(`impl Draw for Edge<usize>`) -/

/-- Model of `struct Canvas` from `main.rs`: a dense row-major pixel buffer. -/
structure Canvas where
  width : Nat
  height : Nat
  pixels : List Color
  deriving DecidableEq, Repr

/-- Model of `Canvas::new`: pre-filled with white. -/
def Canvas.new (width height : Nat) : Canvas :=
  ⟨width, height, List.replicate (width * height) .White⟩

/-- Model of `Canvas::set` (`main.rs` lines 639-644): writes index `x + y * width`.
`List.set` ignores an out-of-range index, matching the release-mode
contract only on in-bounds coordinates (debug builds assert). -/
def Canvas.set (c : Canvas) (x y : Nat) (color : Color) : Canvas :=
  { c with pixels := c.pixels.set (x + y * c.width) color }

/-- Model of `Canvas::get` (`main.rs` lines 646-650); the theorems below only query
in-bounds coordinates, where the `getD` default is irrelevant. -/
def Canvas.get (c : Canvas) (x y : Nat) : Color :=
  c.pixels.getD (x + y * c.width) .White

/-- A canvas whose pixel buffer has the size `Canvas::new` allocates. -/
def Canvas.wf (c : Canvas) : Prop := c.pixels.length = c.width * c.height

/-- The `usize as i32` cast: low 32 bits, interpreted two's-complement. -/
def i32ofNat (n : Nat) : Int :=
  if n % 2 ^ 32 < 2 ^ 31 then (n % 2 ^ 32 : Int) else (n % 2 ^ 32 : Int) - 2 ^ 32

/-- Wrap an integer into `i32` range (two's complement), modelling
release-mode wrapping of `i32` subtraction. -/
def i32wrap (z : Int) : Int := (z + 2 ^ 31) % 2 ^ 32 - 2 ^ 31

/-- The `f32 as usize` cast: truncation toward zero, saturating at 0 for
negative values (spec-level model of the float-to-integer cast; the slope
arithmetic itself is modelled with exact rationals, see `Edge.draw`). -/
def ratToUsize (q : Rat) : Nat := q.floor.toNat

/-- Model of `impl Draw for Edge<usize>` from `domain.rs` lines 293-328.  Alpha-zero
colors return the canvas untouched; a vertical edge fills the inclusive
`y` run at the fixed `x`; otherwise the slope walk steps `x` one pixel at
a time.  The `f32` slope is modelled with exact rationals; the claims
proved below touch only the early-return and `dx == 0` paths, which
involve no float arithmetic in the source either. -/
def Edge.draw (e : Edge Nat) (canvas : Canvas) : Canvas :=
  let color := e.color
  if color.as_rgba.2.2.2 = 0 then canvas
  else
    let dx : Int := i32wrap (i32ofNat e.«to».x - i32ofNat e.«from».x)
    let dy : Int := i32wrap (i32ofNat e.«to».y - i32ofNat e.«from».y)
    if dx = 0 then
      let startY := min e.«from».y e.«to».y
      (List.range' startY (dy.natAbs + 1)).foldl
        (fun c y => c.set e.«from».x y color) canvas
    else
      let slope : Rat := (dy : Rat) / (dx : Rat)
      if dx > 0 then
        (List.range' 0 (dx.toNat + 1)).foldl
          (fun c step =>
            c.set (e.«from».x + step)
              (ratToUsize ((e.«from».y : Rat) + (step : Rat) * slope)) color)
          canvas
      else
        (List.range' 0 (dx.natAbs + 1)).foldl
          (fun c i =>
            c.set (e.«from».x - i)
              (ratToUsize ((e.«from».y : Rat) - (i : Rat) * slope)) color)
          canvas

/-! ## Lexer, from `lexer.rs` / `parser.rs` (`fn lexer`)

Tokens are modelled without their byte-offset spans: spans feed only the
diagnostic reports, which no claim concerns. -/

/-- Model of `enum Token` from `parser.rs`. -/
inductive Token where
  | Num (n : Int)
  | Ident (s : String)
  | Shape
  | Tag (s : String)
  | At
  | Comma
  | Colon
  | OpenCurly
  | CloseCurly
  | OpenSquare
  | CloseSquare
  deriving DecidableEq, Repr

/-- Characters accepted inside a `#tag` token: ASCII alphanumeric, `_`, `-`. -/
def isTagChar (c : Char) : Bool := c.isAlphanum || c = '_' || c = '-'

/-- Characters accepted after the first character of an identifier
(`text::ascii::ident`): ASCII alphanumeric or `_`. -/
def isIdentChar (c : Char) : Bool := c.isAlphanum || c = '_'

/-- Decimal value of a digit string (the `from_str` of the lexed slice). -/
def digitsToNat (l : List Char) : Nat :=
  l.foldl (fun acc c => acc * 10 + (c.toNat - '0'.toNat)) 0

/-- The `num` lexeme: optional `-` then `text::int(10)` (a single `0`, or a
nonzero digit followed by digits — no leading zeroes). -/
def lexNum (cs : List Char) : Option (Token × List Char) :=
  let (sign, cs') : Int × List Char :=
    match cs with
    | '-' :: rest => (-1, rest)
    | _ => (1, cs)
  match cs' with
  | '0' :: rest => some (.Num (sign * 0), rest)
  | c :: rest =>
      if c.isDigit && c ≠ '0' then
        let digits := rest.takeWhile Char.isDigit
        some (.Num (sign * digitsToNat (c :: digits)), rest.dropWhile Char.isDigit)
      else none
  | [] => none

/-- The `ident` lexeme: `text::ascii::ident`, with `shape` reclassified as a
keyword token. -/
def lexIdent (cs : List Char) : Option (Token × List Char) :=
  match cs with
  | c :: rest =>
      if c.isAlpha || c = '_' then
        let tailChars := rest.takeWhile isIdentChar
        let s := String.mk (c :: tailChars)
        some (if s = "shape" then .Shape else .Ident s, rest.dropWhile isIdentChar)
      else none
  | [] => none

/-- The `tag` lexeme: `#` followed by zero or more tag characters. -/
def lexTag (cs : List Char) : Option (Token × List Char) :=
  match cs with
  | '#' :: rest =>
      some (.Tag (String.mk (rest.takeWhile isTagChar)), rest.dropWhile isTagChar)
  | _ => none

/-- One token, trying the alternatives in the order of the source's
`choice((num, ident, comma, colon, tag, at, ...))`. -/
def lexToken (cs : List Char) : Option (Token × List Char) :=
  (lexNum cs).orElse fun _ =>
  (lexIdent cs).orElse fun _ =>
  ((match cs with
   | ',' :: rest => some (.Comma, rest)
   | ':' :: rest => some (.Colon, rest)
   | _ => none : Option (Token × List Char))).orElse fun _ =>
  (lexTag cs).orElse fun _ =>
  (match cs with
   | '@' :: rest => some (.At, rest)
   | '{' :: rest => some (.OpenCurly, rest)
   | '}' :: rest => some (.CloseCurly, rest)
   | '[' :: rest => some (.OpenSquare, rest)
   | ']' :: rest => some (.CloseSquare, rest)
   | _ => none)

/-- The lexer loop: skip whitespace and `//` line comments between tokens;
on an unrecognized character, skip it and resume (the
`skip_then_retry_until` recovery).  Fuel bounds the recursion; every step
consumes at least one character, so `src.length` fuel is enough. -/
def lexLoop : Nat → List Char → List Token
  | 0, _ => []
  | _, [] => []
  | fuel + 1, c :: rest =>
      if c.isWhitespace then lexLoop fuel rest
      else if c = '/' && rest.head? = some '/' then
        lexLoop fuel ((rest.tail).dropWhile (fun ch => ch ≠ '\n'))
      else
        match lexToken (c :: rest) with
        | some (t, rest') => t :: lexLoop fuel rest'
        | none => lexLoop fuel rest

/-- Tokenize a source string. -/
def lex (src : String) : List Token := lexLoop src.length src.data

/-! ## Grammar parser, from `parser.rs` (`fn parser`)

Each combinator becomes a function from a token list to an optional value
plus remaining tokens; `choice` tries alternatives in order with
backtracking, `repeated` is greedy, and fuel bounds the repetition (each
iteration consumes at least one token). -/

/-- Consume one expected token. -/
def pToken (t : Token) : List Token → Option (List Token)
  | t' :: rest => if t' = t then some rest else none
  | [] => none

/-- The `num` selector. -/
def pNum : List Token → Option (Int × List Token)
  | .Num n :: rest => some (n, rest)
  | _ => none

/-- The `tag` selector. -/
def pTag : List Token → Option (String × List Token)
  | .Tag t :: rest => some (t, rest)
  | _ => none

/-- The `ident` selector. -/
def pIdent : List Token → Option (String × List Token)
  | .Ident s :: rest => some (s, rest)
  | _ => none

/-- Model of `num_pair := NUM "," NUM`. -/
def pNumPair (ts : List Token) : Option ((Int × Int) × List Token) := do
  let (n1, ts) ← pNum ts
  let ts ← pToken .Comma ts
  let (n2, ts) ← pNum ts
  some ((n1, n2), ts)

/-- Model of `tag.or_not()`. -/
def pOptTag (ts : List Token) : Option String × List Token :=
  match pTag ts with
  | some (t, rest) => (some t, rest)
  | none => (none, ts)

/-- Model of `coord_rel := num_pair tag?`. -/
def pCoordRel (ts : List Token) : Option (Coord × List Token) := do
  let ((x, y), ts) ← pNumPair ts
  let (t, ts) := pOptTag ts
  some (.Relative x y t, ts)

/-- Model of `coord_abs := "@" num_pair tag?`. -/
def pCoordAbs (ts : List Token) : Option (Coord × List Token) := do
  let ts ← pToken .At ts
  let ((x, y), ts) ← pNumPair ts
  let (t, ts) := pOptTag ts
  some (.Absolute x y t, ts)

/-- Model of `coord_ref := "@" tag`. -/
def pCoordRef (ts : List Token) : Option (Coord × List Token) := do
  let ts ← pToken .At ts
  let (t, ts) ← pTag ts
  some (.Reference t, ts)

/-- Model of `coord := choice((coord_rel, coord_abs, coord_ref))`. -/
def pCoord (ts : List Token) : Option (Coord × List Token) :=
  (pCoordRel ts).orElse fun _ => (pCoordAbs ts).orElse fun _ => pCoordRef ts

/-- Model of `edge_attr := ident ":" ident`. -/
def pAttr (ts : List Token) : Option ((String × String) × List Token) := do
  let (k, ts) ← pIdent ts
  let ts ← pToken .Colon ts
  let (v, ts) ← pIdent ts
  some ((k, v), ts)

/-- Continuation of `edge_attr.separated_by(",").allow_trailing()`: further
`"," edge_attr` groups, with an optional trailing comma. -/
def pAttrsTail : Nat → List (String × String) → List Token →
    List (String × String) × List Token
  | 0, acc, ts => (acc, ts)
  | fuel + 1, acc, ts =>
      match pToken .Comma ts with
      | none => (acc, ts)
      | some ts1 =>
          match pAttr ts1 with
          | none => (acc, ts1)
          | some (a, ts2) => pAttrsTail fuel (acc ++ [a]) ts2

/-- Model of `edge_attrs := "[" edge_attr_list "]"` (the `collect::<HashMap>` is kept
as the parsed association list, in source order). -/
def pEdgeAttrs (ts : List Token) : Option (List (String × String) × List Token) := do
  let ts ← pToken .OpenSquare ts
  let (attrs, ts) :=
    match pAttr ts with
    | none => ([], ts)
    | some (a, ts1) => pAttrsTail ts1.length [a] ts1
  let ts ← pToken .CloseSquare ts
  some (attrs, ts)

/-- Model of `node := coord edge_attrs?`. -/
def pNode (ts : List Token) : Option (EdgeStart × List Token) := do
  let (c, ts1) ← pCoord ts
  let (attrs, ts2) :=
    match pEdgeAttrs ts1 with
    | some (a, r) => (a, r)
    | none => ([], ts1)
  some (⟨c, attrs⟩, ts2)

/-- Model of `node.repeated()` (greedy). -/
def pNodes : Nat → List Token → List EdgeStart × List Token
  | 0, ts => ([], ts)
  | fuel + 1, ts =>
      match pNode ts with
      | none => ([], ts)
      | some (n, ts') =>
          let (rest, ts'') := pNodes fuel ts'
          (n :: rest, ts'')

/-- Model of `shape := "shape" "{" node* "}"`. -/
def pShape (ts : List Token) : Option (List EdgeStart × List Token) := do
  let ts ← pToken .Shape ts
  let ts ← pToken .OpenCurly ts
  let (ns, ts) := pNodes ts.length ts
  let ts ← pToken .CloseCurly ts
  some (ns, ts)

/-- Model of `program := shape*` (greedy). -/
def pProgram : Nat → List Token → List (List EdgeStart) × List Token
  | 0, ts => ([], ts)
  | fuel + 1, ts =>
      match pShape ts with
      | none => ([], ts)
      | some (s, ts') =>
          let (rest, ts'') := pProgram fuel ts'
          (s :: rest, ts'')

/-- Model of `parser::parse`: lex, parse the whole token stream, and fall back to the
empty forest when parsing does not consume everything (the source reports
diagnostics and returns `unwrap_or_default`). -/
def parse (src : String) : List (List EdgeStart) :=
  let ts := lex src
  let (shapes, rest) := pProgram ts.length ts
  if rest = [] then shapes else []

/-! ## Point-to-segment projection (spec §4.4)

No projection code ships under `src/`; the definition below is modelled
from the spec. -/

/-- Modelled from the spec: the point-to-segment projection of §4.4, which
is absent from `src/` (the spec lists it under the geometry engine for the
viewer's hit-testing).  "computes the scalar projection coefficient of a
query point onto the infinite line through an edge's endpoints, clamps the
projected point to the edge's own bounding box if the raw projection falls
outside it (so the closest point is always on the segment, not the
infinite line), and returns both that closest point and its Euclidean
distance to the query point" — coordinates are modelled as exact
rationals and the distance is returned squared (`Rat` has no square
root); a division by zero for a degenerate segment yields `t = 0`, i.e.
the first endpoint. -/
def segmentClosest (a b q : Point ℚ) : Point ℚ × ℚ :=
  let dx := b.x - a.x
  let dy := b.y - a.y
  let t := ((q.x - a.x) * dx + (q.y - a.y) * dy) / (dx ^ 2 + dy ^ 2)
  let raw : Point ℚ := ⟨a.x + t * dx, a.y + t * dy⟩
  let closest : Point ℚ :=
    ⟨min (max raw.x (min a.x b.x)) (max a.x b.x),
     min (max raw.y (min a.y b.y)) (max a.y b.y)⟩
  (closest, (closest.x - q.x) ^ 2 + (closest.y - q.y) ^ 2)

/-! ## Claim-statement helpers -/

/-- The tag a coordinate binds (only `Absolute`/`Relative` may carry one). -/
def EdgeStart.boundTag (e : EdgeStart) : Option String :=
  match e.coord with
  | .Absolute _ _ t => t
  | .Relative _ _ t => t
  | .Reference _ => none

/-- The tag a coordinate references. -/
def EdgeStart.refTag (e : EdgeStart) : Option String :=
  match e.coord with
  | .Reference t => some t
  | _ => none

/-- All tags bound (syntactically) anywhere in a document. -/
def docBoundTags (doc : List (List EdgeStart)) : List String :=
  doc.flatMap (fun s => s.filterMap EdgeStart.boundTag)

/-- All tags referenced anywhere in a document. -/
def docRefTags (doc : List (List EdgeStart)) : List String :=
  doc.flatMap (fun s => s.filterMap EdgeStart.refTag)

/-- The literal point of an `Absolute` coordinate (used to state claims
about all-absolute command lists). -/
def Coord.literalPoint : Coord → Point Int
  | .Absolute x y _ => ⟨x, y⟩
  | .Relative x y _ => ⟨x, y⟩
  | .Reference _ => ⟨0, 0⟩

/-- Source text of spec Example 1. -/
def example1_src : String := "shape \x7b @0,0 #p0 0,5 5,5 5,0 @#p0 \x7d"

/-- The tag name of the C2 counterexample document. -/
def missingTag : String := "missing"

/-- A tag name used in concrete witness documents. -/
def tTag : String := "t"

/-- The empty tag name (default for out-of-range `getD` reads). -/
def emptyTag : String := ""

/-! ## Theorems -/

/-- C1: the spec has the cursor start at the coordinate-system origin, with
`Absolute` resolving literally and `Relative(dx, dy)` resolving to
`cursor + (dx, dy)`, so a shape-initial `Relative(1, 2)` should resolve to
`(1, 2)`.  The code's fallback for an empty node list is `Node::new(*y, *x)`
(`main.rs` line 38) with swapped arguments: the shape
`[Relative(1, 2), Absolute(0, 0)]` resolves its first coordinate to
`(2, 1)`. -/
theorem c1_first_relative_swapped :
    resolveDoc [[⟨.Relative 1 2 none, []⟩, ⟨.Absolute 0 0 none, []⟩]] =
        .ok ⟨[⟨[Edge.new 2 1 0 0 .Black]⟩]⟩ ∧
      (Edge.new 2 1 0 0 .Black).«from» ≠ (⟨1, 2⟩ : Point Int) := by
  exact ⟨rfl, by decide⟩

/-- C4: parsing and resolving `shape { @0,0 #p0 0,5 5,5 5,0 @#p0 }` produces
exactly one shape of exactly 4 edges, and the last edge's `to` equals the
first edge's `from` (the rectangle is closed via the `#p0` reference). -/
theorem c4_example1 :
    ∃ s : Shape Int,
      resolveDoc (parse example1_src) = .ok ⟨[s]⟩ ∧
      s.edges.length = 4 ∧
      (s.edges.getLast?).map (fun e => e.«to») =
        (s.edges.head?).map (fun e => e.«from») := by
  refine ⟨⟨[Edge.new 0 0 0 5 .Black, Edge.new 0 5 5 10 .Black,
            Edge.new 5 10 10 10 .Black, Edge.new 10 10 0 0 .Black]⟩, rfl, rfl, rfl⟩

/-- Setting a pixel keeps the canvas well-formed. -/
theorem Canvas.set_wf {c : Canvas} (h : c.wf) (x y : Nat) (col : Color) :
    (c.set x y col).wf := by
  simpa [Canvas.wf, Canvas.set] using h

/-- Reading back after `Canvas::set`: the written pixel holds the new color
and every other in-bounds pixel is untouched (row-major index arithmetic is
injective on in-bounds coordinates). -/
theorem Canvas.get_set (c : Canvas) (hwf : c.wf) {x y x' y' : Nat}
    (hx : x < c.width) (hy : y < c.height)
    (hx' : x' < c.width) (hy' : y' < c.height) (col : Color) :
    (c.set x y col).get x' y' = if x' = x ∧ y' = y then col else c.get x' y' := by
  have hw : 0 < c.width := Nat.lt_of_le_of_lt (Nat.zero_le x) hx
  have hidx : ∀ a b : Nat, a < c.width → b < c.height →
      a + b * c.width < c.pixels.length := by
    intro a b ha hb
    have h1 : a + b * c.width < (b + 1) * c.width := by
      rw [Nat.succ_mul]; omega
    have h2 : (b + 1) * c.width ≤ c.height * c.width :=
      Nat.mul_le_mul_right _ (by omega)
    have h3 : a + b * c.width < c.height * c.width := Nat.lt_of_lt_of_le h1 h2
    rw [hwf, Nat.mul_comm c.width c.height]
    exact h3
  have hinj : (x + y * c.width = x' + y' * c.width) ↔ (x' = x ∧ y' = y) := by
    constructor
    · intro h
      have hmx : (x + y * c.width) % c.width = x := by
        rw [Nat.add_mul_mod_self_right, Nat.mod_eq_of_lt hx]
      have hmx' : (x' + y' * c.width) % c.width = x' := by
        rw [Nat.add_mul_mod_self_right, Nat.mod_eq_of_lt hx']
      have hxx : x = x' := by rw [← hmx, ← hmx', h]
      refine ⟨hxx.symm, ?_⟩
      have : y * c.width = y' * c.width := by omega
      exact (Nat.eq_of_mul_eq_mul_right hw this).symm
    · rintro ⟨rfl, rfl⟩; rfl
  simp only [Canvas.get, Canvas.set, List.getD_eq_getElem?_getD, List.getElem?_set]
  by_cases h : x' = x ∧ y' = y
  · obtain ⟨rfl, rfl⟩ := h
    simp [hidx x' y' hx' hy']
  · have hne : ¬(x + y * c.width = x' + y' * c.width) := fun hc => h (hinj.mp hc)
    simp [hne, h]

/-- C10: on a well-formed canvas, `Canvas::set(x, y, c)` followed by
`Canvas::get(x, y)` returns `c`, and `get` at every other in-bounds
coordinate returns what it returned before the `set`: a set writes exactly
one pixel. -/
theorem c10_set_writes_one_pixel (c : Canvas) (hwf : c.wf) (x y : Nat)
    (hx : x < c.width) (hy : y < c.height) (col : Color) :
    (c.set x y col).get x y = col ∧
    ∀ x' y', x' < c.width → y' < c.height → ¬(x' = x ∧ y' = y) →
      (c.set x y col).get x' y' = c.get x' y' := by
  constructor
  · rw [Canvas.get_set c hwf hx hy hx hy col]
    simp
  · intro x' y' hx' hy' hne
    rw [Canvas.get_set c hwf hx hy hx' hy' col, if_neg hne]

/-- Witness for C10 on a concrete 2×2 canvas. -/
theorem c10_set_writes_one_pixel_witness :
    ((Canvas.new 2 2).set 1 0 .Red).get 1 0 = .Red ∧
    ((Canvas.new 2 2).set 1 0 .Red).get 0 1 = (Canvas.new 2 2).get 0 1 := by
  have h := c10_set_writes_one_pixel (Canvas.new 2 2) (by simp [Canvas.wf, Canvas.new]) 1 0
    (by decide) (by decide) .Red
  exact ⟨h.1, h.2 0 1 (by decide) (by decide) (by decide)⟩

/-- C8: drawing an edge whose color has alpha 0 (`Transparent`, or a
`Custom` color with alpha component 0) leaves the canvas — hence every one
of its pixels — unchanged: the edge is skipped by the early return of
`Edge::draw`. -/
theorem c8_alpha_zero_noop (e : Edge Nat) (c : Canvas)
    (h : e.color.as_rgba.2.2.2 = 0) : e.draw c = c := by
  simp [Edge.draw, h]

/-- Witness for C8: a transparent edge and a custom alpha-zero edge. -/
theorem c8_alpha_zero_noop_witness :
    (Edge.new 0 0 0 2 Color.Transparent).draw (Canvas.new 3 3) = Canvas.new 3 3 ∧
    (Edge.new 0 0 2 2 (Color.Custom (9, 9, 9, 0))).draw (Canvas.new 3 3) =
      Canvas.new 3 3 :=
  ⟨c8_alpha_zero_noop _ _ (by decide), c8_alpha_zero_noop _ _ (by decide)⟩

/-- C9 (modelled from the spec, no projection code ships under `src/`):
the point-to-segment projection clamps to the edge's own bounding box, so
the returned closest point always lies inside that box, and the returned
(squared) distance is the squared Euclidean distance from the query point
to that closest point. -/
theorem c9_projection_in_bbox (a b q : Point ℚ) :
    min a.x b.x ≤ (segmentClosest a b q).1.x ∧
    (segmentClosest a b q).1.x ≤ max a.x b.x ∧
    min a.y b.y ≤ (segmentClosest a b q).1.y ∧
    (segmentClosest a b q).1.y ≤ max a.y b.y ∧
    (segmentClosest a b q).2 =
      ((segmentClosest a b q).1.x - q.x) ^ 2 +
        ((segmentClosest a b q).1.y - q.y) ^ 2 := by
  refine ⟨?_, ?_, ?_, ?_, rfl⟩
  · exact le_min (le_max_right _ _) min_le_max
  · exact min_le_right _ _
  · exact le_min (le_max_right _ _) min_le_max
  · exact min_le_right _ _

/-- The `usize as i32` casts and the wrapping subtraction are exact when
both operands are below `2^31`. -/
theorem i32cast_sub_small {a b : Nat} (ha : a < 2 ^ 31) (hb : b < 2 ^ 31) :
    i32wrap (i32ofNat a - i32ofNat b) = (a : Int) - b := by
  have ha' : a % 2 ^ 32 = a := Nat.mod_eq_of_lt (by omega)
  have hb' : b % 2 ^ 32 = b := Nat.mod_eq_of_lt (by omega)
  simp only [i32ofNat, ha', hb', if_pos ha, if_pos hb, i32wrap]
  omega

/-- Wrapping zero into i32 range is the identity. -/
theorem i32wrap_zero : i32wrap 0 = 0 := by decide

/-- Reading a canvas after a fold of vertical `set`s at a fixed `x`: pixels
on the written column segment hold the new color, all other in-bounds
pixels are untouched. -/
theorem Canvas.get_foldl_vert (col : Color) (fx : Nat) :
    ∀ (count startY : Nat) (c : Canvas), c.wf → fx < c.width →
      startY + count ≤ c.height →
      ∀ x y, x < c.width → y < c.height →
        (((List.range' startY count).foldl (fun cv yy => cv.set fx yy col) c).get x y) =
          if x = fx ∧ startY ≤ y ∧ y < startY + count then col else c.get x y := by
  intro count
  induction count with
  | zero =>
      intro startY c hwf hfx hrange x y hx hy
      rw [if_neg (by omega)]
      rfl
  | succ n ih =>
      intro startY c hwf hfx hrange x y hx hy
      rw [List.range'_succ]
      simp only [List.foldl_cons]
      rw [ih (startY + 1) (c.set fx startY col) (Canvas.set_wf hwf _ _ _) hfx
        (by show startY + 1 + n ≤ c.height; omega) x y hx hy]
      rw [Canvas.get_set c hwf hfx (by omega) hx hy col]
      split_ifs <;> first | rfl | (exfalso; omega)

/-- C7: drawing a vertical edge (`dx = 0`) with a non-alpha-zero color whose
endpoints lie strictly inside the canvas sets exactly the pixels `(x, y)`
with `x` the edge's fixed column and `y` ranging from
`min(from.y, to.y)` to `max(from.y, to.y)` inclusive (`|dy| + 1` pixels),
leaving every other in-bounds pixel unchanged.  The bound
`c.height ≤ 2^31` keeps the `usize as i32` casts of the source exact. -/
theorem c7_vertical_run (e : Edge Nat) (c : Canvas)
    (hwf : c.wf)
    (hx0 : e.«from».x = e.«to».x)
    (halpha : e.color.as_rgba.2.2.2 ≠ 0)
    (hxw : e.«from».x < c.width)
    (hfy : e.«from».y < c.height)
    (hty : e.«to».y < c.height)
    (hh : c.height ≤ 2 ^ 31) :
    ∀ x y, x < c.width → y < c.height →
      (e.draw c).get x y =
        if x = e.«from».x ∧ min e.«from».y e.«to».y ≤ y ∧
            y ≤ max e.«from».y e.«to».y
        then e.color else c.get x y := by
  intro x y hx hy
  have hdx : i32wrap (i32ofNat e.«to».x - i32ofNat e.«from».x) = 0 := by
    rw [hx0, sub_self, i32wrap_zero]
  have hdy : i32wrap (i32ofNat e.«to».y - i32ofNat e.«from».y) =
      (e.«to».y : Int) - e.«from».y :=
    i32cast_sub_small (by omega) (by omega)
  have habs : ((e.«to».y : Int) - e.«from».y).natAbs =
      max e.«from».y e.«to».y - min e.«from».y e.«to».y := by omega
  simp only [Edge.draw, hdx, hdy, habs, if_neg halpha, if_pos rfl, if_true]
  rw [Canvas.get_foldl_vert e.color e.«from».x
    (max e.«from».y e.«to».y - min e.«from».y e.«to».y + 1)
    (min e.«from».y e.«to».y) c hwf hxw (by omega) x y hx hy]
  split_ifs <;> first | rfl | (exfalso; omega)

/-- Witness for C7: the vertical edge `(1,0)–(1,2)` on a 3×3 canvas colors
`(1,1)` and leaves `(0,1)` white. -/
theorem c7_vertical_run_witness :
    ((Edge.new 1 0 1 2 Color.Red).draw (Canvas.new 3 3)).get 1 1 = Color.Red ∧
    ((Edge.new 1 0 1 2 Color.Red).draw (Canvas.new 3 3)).get 0 1 =
      (Canvas.new 3 3).get 0 1 := by
  have h := c7_vertical_run (Edge.new 1 0 1 2 Color.Red) (Canvas.new 3 3)
    (by simp [Canvas.wf, Canvas.new]) (by decide) (by decide) (by decide)
    (by decide) (by decide) (by decide)
  constructor
  · rw [h 1 1 (by decide) (by decide)]
    decide
  · rw [h 0 1 (by decide) (by decide)]
    decide

/-- Translating a point twice adds the offsets. -/
theorem point_translate_add (p : Point Int) (a b c d : Int) :
    (p.translate a b).translate c d = p.translate (a + c) (b + d) := by
  cases p
  simp only [Point.translate, Point.mk.injEq]
  constructor <;> ring

/-- Translating a point by `(0, 0)` is the identity. -/
theorem point_translate_zero (p : Point Int) : p.translate 0 0 = p := by
  cases p; simp [Point.translate]

/-- Translating an edge twice adds the offsets. -/
theorem edge_translate_add (e : Edge Int) (a b c d : Int) :
    (e.translate a b).translate c d = e.translate (a + c) (b + d) := by
  cases e; simp [Edge.translate, point_translate_add]

/-- Translating an edge by `(0, 0)` is the identity. -/
theorem edge_translate_zero (e : Edge Int) : e.translate 0 0 = e := by
  cases e; simp [Edge.translate, point_translate_zero]

/-- Translating a shape twice adds the offsets. -/
theorem shape_translate_add (s : Shape Int) (a b c d : Int) :
    (s.translate a b).translate c d = s.translate (a + c) (b + d) := by
  cases s
  simp [Shape.translate, List.map_map, Function.comp_def, edge_translate_add]

/-- Translating a shape by `(0, 0)` is the identity. -/
theorem shape_translate_zero (s : Shape Int) : s.translate 0 0 = s := by
  cases s; simp [Shape.translate, edge_translate_zero]

/-- Translating a blueprint twice adds the offsets. -/
theorem blueprint_translate_add (bp : Blueprint Int) (a b c d : Int) :
    (bp.translate a b).translate c d = bp.translate (a + c) (b + d) := by
  cases bp
  simp [Blueprint.translate, List.map_map, Function.comp_def, shape_translate_add]

/-- Translating a blueprint by `(0, 0)` is the identity. -/
theorem blueprint_translate_zero (bp : Blueprint Int) : bp.translate 0 0 = bp := by
  cases bp; simp [Blueprint.translate, shape_translate_zero]

/-- C6: translating a blueprint to the origin and then translating it back
by the original bounding box's top-left offset reproduces the original
blueprint exactly — every edge endpoint of every shape returns to its
original integer coordinates, with shape and edge order (and colors)
unchanged. -/
theorem c6_translate_round_trip : ∀ bp : Blueprint Int,
    (bp.translate_to_origin).translate bp.boundaries.1.x bp.boundaries.1.y = bp := by
  intro bp
  rw [Blueprint.translate_to_origin, blueprint_translate_add]
  simp [blueprint_translate_zero]

/-- The bounding-box fold never exceeds its starting accumulator (the
top-left component only shrinks). -/
theorem foldl_boundCombine_init_le (l : List (Point Int × Point Int)) :
    ∀ init : Point Int × Point Int,
      (l.foldl boundCombine init).1.x ≤ init.1.x ∧
      (l.foldl boundCombine init).1.y ≤ init.1.y := by
  induction l with
  | nil => intro init; exact ⟨le_refl _, le_refl _⟩
  | cons a t ih =>
      intro init
      have h := ih (boundCombine init a)
      exact ⟨le_trans h.1 (min_le_left _ _), le_trans h.2 (min_le_left _ _)⟩

/-- The top-left component of the bounding-box fold is below every folded
entry. -/
theorem foldl_boundCombine_mem_le (l : List (Point Int × Point Int)) :
    ∀ (init : Point Int × Point Int), ∀ b ∈ l,
      (l.foldl boundCombine init).1.x ≤ b.1.x ∧
      (l.foldl boundCombine init).1.y ≤ b.1.y := by
  induction l with
  | nil => intro init b hb; cases hb
  | cons a t ih =>
      intro init b hb
      rcases List.mem_cons.mp hb with rfl | hb'
      · have h := foldl_boundCombine_init_le t (boundCombine init b)
        exact ⟨le_trans h.1 (min_le_right _ _), le_trans h.2 (min_le_right _ _)⟩
      · exact ih (boundCombine init a) b hb'

/-- The blueprint's computed top-left corner is dominated by every edge
endpoint of every shape. -/
theorem boundaries_le_endpoints (bp : Blueprint Int) :
    ∀ s ∈ bp.shapes, ∀ e ∈ s.edges,
      bp.boundaries.1.x ≤ e.«from».x ∧ bp.boundaries.1.y ≤ e.«from».y ∧
      bp.boundaries.1.x ≤ e.«to».x ∧ bp.boundaries.1.y ≤ e.«to».y := by
  intro s hs e he
  have h1 := foldl_boundCombine_mem_le (bp.shapes.map Shape.boundaries)
    (⟨i32MAX, i32MAX⟩, ⟨i32MIN, i32MIN⟩) (Shape.boundaries s)
    (List.mem_map_of_mem _ hs)
  have h2 := foldl_boundCombine_mem_le (s.edges.map Edge.boundaries)
    (⟨i32MAX, i32MAX⟩, ⟨i32MIN, i32MIN⟩) (Edge.boundaries e)
    (List.mem_map_of_mem _ he)
  have hbx : bp.boundaries.1.x ≤ (Shape.boundaries s).1.x := h1.1
  have hby : bp.boundaries.1.y ≤ (Shape.boundaries s).1.y := h1.2
  have hsx : (Shape.boundaries s).1.x ≤ min e.«from».x e.«to».x := h2.1
  have hsy : (Shape.boundaries s).1.y ≤ min e.«from».y e.«to».y := h2.2
  refine ⟨?_, ?_, ?_, ?_⟩
  · exact le_trans hbx (le_trans hsx (min_le_left _ _))
  · exact le_trans hby (le_trans hsy (min_le_left _ _))
  · exact le_trans hbx (le_trans hsx (min_le_right _ _))
  · exact le_trans hby (le_trans hsy (min_le_right _ _))

/-- Converting a `Point` to `usize` fails exactly on a negative coordinate. -/
theorem point_try_into_eq_none (p : Point Int) :
    p.try_into = none ↔ p.x < 0 ∨ p.y < 0 := by
  by_cases h : p.x < 0 ∨ p.y < 0 <;> simp [Point.try_into, h]

/-- Converting an `Edge` fails exactly when one endpoint has a negative
coordinate. -/
theorem edge_try_into_eq_none (e : Edge Int) :
    e.try_into = none ↔
      e.«from».x < 0 ∨ e.«from».y < 0 ∨ e.«to».x < 0 ∨ e.«to».y < 0 := by
  unfold Edge.try_into
  rcases hf : e.«from».try_into with _ | f
  · have := (point_try_into_eq_none e.«from»).mp hf
    simp only []
    constructor
    · intro _; omega
    · intro _; trivial
  · have hfn : ¬(e.«from».x < 0 ∨ e.«from».y < 0) := by
      intro hc
      rw [(point_try_into_eq_none e.«from»).mpr hc] at hf
      cases hf
    rcases ht : e.«to».try_into with _ | t
    · have := (point_try_into_eq_none e.«to»).mp ht
      simp only []
      constructor
      · intro _; omega
      · intro _; trivial
    · have htn : ¬(e.«to».x < 0 ∨ e.«to».y < 0) := by
        intro hc
        rw [(point_try_into_eq_none e.«to»).mpr hc] at ht
        cases ht
      simp only []
      constructor
      · intro hc; cases hc
      · intro hc; omega

/-- Converting an edge list fails exactly when some edge fails. -/
theorem tryFromEdges_eq_none (l : List (Edge Int)) :
    tryFromEdges l = none ↔ ∃ e ∈ l, e.try_into = none := by
  induction l with
  | nil => simp [tryFromEdges]
  | cons e t ih =>
      unfold tryFromEdges
      rcases he : e.try_into with _ | e'
      · simp only []
        constructor
        · intro _; exact ⟨e, List.mem_cons_self _ _, he⟩
        · intro _; trivial
      · rcases ht : tryFromEdges t with _ | t'
        · simp only []
          constructor
          · intro _
            obtain ⟨e₀, he₀, hn⟩ := ih.mp ht
            exact ⟨e₀, List.mem_cons_of_mem _ he₀, hn⟩
          · intro _; trivial
        · simp only []
          constructor
          · intro hc; cases hc
          · rintro ⟨e₀, he₀, hn⟩
            rcases List.mem_cons.mp he₀ with rfl | he₀'
            · rw [he] at hn; cases hn
            · have : tryFromEdges t = none := ih.mpr ⟨e₀, he₀', hn⟩
              rw [ht] at this; cases this

/-- Converting a shape fails exactly when some of its edges fails. -/
theorem shape_try_into_eq_none (s : Shape Int) :
    s.try_into = none ↔ ∃ e ∈ s.edges, e.try_into = none := by
  rw [← tryFromEdges_eq_none]
  unfold Shape.try_into
  rcases h : tryFromEdges s.edges with _ | l <;> simp [h]

/-- Converting a shape list fails exactly when some shape fails. -/
theorem tryFromShapes_eq_none (l : List (Shape Int)) :
    tryFromShapes l = none ↔ ∃ s ∈ l, s.try_into = none := by
  induction l with
  | nil => simp [tryFromShapes]
  | cons s t ih =>
      unfold tryFromShapes
      rcases hs : s.try_into with _ | s'
      · simp only []
        constructor
        · intro _; exact ⟨s, List.mem_cons_self _ _, hs⟩
        · intro _; trivial
      · rcases ht : tryFromShapes t with _ | t'
        · simp only []
          constructor
          · intro _
            obtain ⟨s₀, hs₀, hn⟩ := ih.mp ht
            exact ⟨s₀, List.mem_cons_of_mem _ hs₀, hn⟩
          · intro _; trivial
        · simp only []
          constructor
          · intro hc; cases hc
          · rintro ⟨s₀, hs₀, hn⟩
            rcases List.mem_cons.mp hs₀ with rfl | hs₀'
            · rw [hs] at hn; cases hn
            · have : tryFromShapes t = none := ih.mpr ⟨s₀, hs₀', hn⟩
              rw [ht] at this; cases this

/-- Blueprint conversion fails exactly when some endpoint is negative. -/
theorem blueprint_try_into_eq_none (bp : Blueprint Int) :
    bp.try_into = none ↔
      ∃ s ∈ bp.shapes, ∃ e ∈ s.edges,
        e.«from».x < 0 ∨ e.«from».y < 0 ∨ e.«to».x < 0 ∨ e.«to».y < 0 := by
  have step : bp.try_into = none ↔ tryFromShapes bp.shapes = none := by
    unfold Blueprint.try_into
    rcases h : tryFromShapes bp.shapes with _ | l <;> simp [h]
  rw [step, tryFromShapes_eq_none]
  constructor
  · rintro ⟨s, hs, hn⟩
    obtain ⟨e, he, hen⟩ := (shape_try_into_eq_none s).mp hn
    exact ⟨s, hs, e, he, (edge_try_into_eq_none e).mp hen⟩
  · rintro ⟨s, hs, e, he, hneg⟩
    exact ⟨s, hs, (shape_try_into_eq_none s).mpr
      ⟨e, he, (edge_try_into_eq_none e).mpr hneg⟩⟩

/-- C3: after `translate_to_origin`, the `TryFrom<Blueprint<i32>>`
conversion to `Blueprint<usize>` always succeeds (the error branch is
unreachable), and in general the conversion fails exactly when some edge
endpoint has a negative coordinate.  Coordinates are modelled as unbounded
integers, matching the claim's no-overflow assumption. -/
theorem c3_conversion_after_translate :
    (∀ bp : Blueprint Int, (Blueprint.try_into bp.translate_to_origin).isSome = true) ∧
    (∀ bp : Blueprint Int, Blueprint.try_into bp = none ↔
      ∃ s ∈ bp.shapes, ∃ e ∈ s.edges,
        e.«from».x < 0 ∨ e.«from».y < 0 ∨ e.«to».x < 0 ∨ e.«to».y < 0) := by
  constructor
  · intro bp
    rw [Option.isSome_iff_ne_none]
    intro hnone
    obtain ⟨s', hs', e', he', hneg⟩ :=
      (blueprint_try_into_eq_none bp.translate_to_origin).mp hnone
    rw [Blueprint.translate_to_origin] at hs'
    obtain ⟨s, hs, rfl⟩ := List.mem_map.mp hs'
    obtain ⟨e, he, rfl⟩ := List.mem_map.mp he'
    have hb := boundaries_le_endpoints bp s hs e he
    simp only [Edge.translate, Point.translate] at hneg
    omega
  · exact blueprint_try_into_eq_none

/-- Resolving a pair list whose coordinates are all `Absolute` never fails
and appends, for each consecutive pair, the edge between the two literal
points. -/
theorem resolvePairs_all_absolute :
    ∀ (ps : List (EdgeStart × EdgeStart)) (m : TagMap) (nodes : List Node)
      (acc : List (Edge Int)),
      (∀ p ∈ ps, (∃ x y t, p.1.coord = Coord.Absolute x y t) ∧
                 (∃ x y t, p.2.coord = Coord.Absolute x y t)) →
      ∃ m', resolvePairs m nodes acc ps =
        .ok (m', acc ++ ps.map (fun p =>
          Edge.new p.1.coord.literalPoint.x p.1.coord.literalPoint.y
            p.2.coord.literalPoint.x p.2.coord.literalPoint.y
            (edgeColor p.1.attributes))) := by
  intro ps
  induction ps with
  | nil =>
      intro m nodes acc _
      exact ⟨m, by simp [resolvePairs]⟩
  | cons p rest ih =>
      intro m nodes acc h
      obtain ⟨⟨x, y, t, hx⟩, ⟨x', y', t', hx'⟩⟩ := h p (List.mem_cons_self _ _)
      rcases p with ⟨a, b⟩
      simp only at hx hx'
      have hrest : ∀ q ∈ rest, (∃ x y t, q.1.coord = Coord.Absolute x y t) ∧
          (∃ x y t, q.2.coord = Coord.Absolute x y t) :=
        fun q hq => h q (List.mem_cons_of_mem _ hq)
      rcases t with _ | tg
      · obtain ⟨m', hm'⟩ := ih m (nodes ++ [Node.new x y])
          (acc ++ [Edge.new x y x' y' (edgeColor a.attributes)]) hrest
        refine ⟨m', ?_⟩
        simp only [resolvePairs, hx, hx', resolveFrom, resolveTo]
        dsimp only [Node.new] at hm' ⊢
        rw [hm']
        simp [Coord.literalPoint, hx, hx']
      · obtain ⟨m', hm'⟩ := ih ((tg, Node.new x y) :: m) (nodes ++ [Node.new x y])
          (acc ++ [Edge.new x y x' y' (edgeColor a.attributes)]) hrest
        refine ⟨m', ?_⟩
        simp only [resolvePairs, hx, hx', resolveFrom, resolveTo]
        dsimp only [Node.new] at hm' ⊢
        rw [hm']
        simp [Coord.literalPoint, hx, hx']

/-- C5: a shape given as `N ≥ 2` sequential `Absolute` coordinates resolves
to exactly `N − 1` edges, the `i`-th edge running from the `i`-th literal
coordinate to the `(i+1)`-th, in order. -/
theorem c5_absolute_chain (coords : List EdgeStart)
    (hlen : 2 ≤ coords.length)
    (habs : ∀ e ∈ coords, ∃ x y t, e.coord = Coord.Absolute x y t) :
    ∃ s : Shape Int, resolveDoc [coords] = .ok ⟨[s]⟩ ∧
      s.edges.length = coords.length - 1 ∧
      ∀ i, i < coords.length - 1 →
        (s.edges.getD i (Edge.new 0 0 0 0 .Black)).«from» =
          (coords.getD i ⟨.Reference emptyTag, []⟩).coord.literalPoint ∧
        (s.edges.getD i (Edge.new 0 0 0 0 .Black)).«to» =
          (coords.getD (i + 1) ⟨.Reference emptyTag, []⟩).coord.literalPoint := by
  have hpairs : ∀ p ∈ coords.zip coords.tail,
      (∃ x y t, p.1.coord = Coord.Absolute x y t) ∧
      (∃ x y t, p.2.coord = Coord.Absolute x y t) := by
    intro p hp
    rcases p with ⟨a, b⟩
    have hab := List.of_mem_zip hp
    exact ⟨habs a hab.1, habs b (List.tail_subset _ hab.2)⟩
  obtain ⟨m', hok⟩ := resolvePairs_all_absolute (coords.zip coords.tail) [] [] [] hpairs
  have hne : coords.isEmpty = false := by
    cases coords with
    | nil => simp at hlen
    | cons a t => rfl
  have hdoc : resolveDoc [coords] =
      .ok ⟨[⟨(coords.zip coords.tail).map (fun p =>
        Edge.new p.1.coord.literalPoint.x p.1.coord.literalPoint.y
          p.2.coord.literalPoint.x p.2.coord.literalPoint.y
          (edgeColor p.1.attributes))⟩]⟩ := by
    simp only [resolveDoc, resolveShapes, hne, Bool.false_eq_true, if_false, hok]
    rfl
  have hziplen : (coords.zip coords.tail).length = coords.length - 1 := by
    rw [List.length_zip, List.length_tail]
    omega
  refine ⟨_, hdoc, ?_, ?_⟩
  · rw [List.length_map, hziplen]
  · intro i hi
    have him : i < ((coords.zip coords.tail).map (fun p =>
        Edge.new p.1.coord.literalPoint.x p.1.coord.literalPoint.y
          p.2.coord.literalPoint.x p.2.coord.literalPoint.y
          (edgeColor p.1.attributes))).length := by
      rw [List.length_map, hziplen]; exact hi
    have hiz : i < (coords.zip coords.tail).length := by rw [hziplen]; exact hi
    have hic : i < coords.length := by omega
    have hic1 : i + 1 < coords.length := by omega
    have hit : i < coords.tail.length := by rw [List.length_tail]; omega
    rw [List.getD_eq_getElem _ _ him, List.getElem_map,
      List.getD_eq_getElem _ _ hic, List.getD_eq_getElem _ _ hic1]
    have hzip : (coords.zip coords.tail)[i] = (coords[i], coords[i + 1]) := by
      rw [List.getElem_zip, List.getElem_tail]
    rw [hzip]
    exact ⟨rfl, rfl⟩

/-- Witness for C5 on a concrete three-coordinate absolute chain. -/
theorem c5_absolute_chain_witness :
    ∃ s : Shape Int,
      resolveDoc [[⟨.Absolute 0 0 none, []⟩, ⟨.Absolute 3 4 none, []⟩,
                   ⟨.Absolute 5 0 none, []⟩]] = .ok ⟨[s]⟩ ∧
      s.edges.length =
        ([⟨.Absolute 0 0 none, []⟩, ⟨.Absolute 3 4 none, []⟩,
          ⟨.Absolute 5 0 none, []⟩] : List EdgeStart).length - 1 ∧
      ∀ i, i < ([⟨.Absolute 0 0 none, []⟩, ⟨.Absolute 3 4 none, []⟩,
          ⟨.Absolute 5 0 none, []⟩] : List EdgeStart).length - 1 →
        (s.edges.getD i (Edge.new 0 0 0 0 .Black)).«from» =
          (([⟨.Absolute 0 0 none, []⟩, ⟨.Absolute 3 4 none, []⟩,
             ⟨.Absolute 5 0 none, []⟩] : List EdgeStart).getD i
            ⟨.Reference emptyTag, []⟩).coord.literalPoint ∧
        (s.edges.getD i (Edge.new 0 0 0 0 .Black)).«to» =
          (([⟨.Absolute 0 0 none, []⟩, ⟨.Absolute 3 4 none, []⟩,
             ⟨.Absolute 5 0 none, []⟩] : List EdgeStart).getD (i + 1)
            ⟨.Reference emptyTag, []⟩).coord.literalPoint :=
  c5_absolute_chain
    [⟨.Absolute 0 0 none, []⟩, ⟨.Absolute 3 4 none, []⟩, ⟨.Absolute 5 0 none, []⟩]
    (by decide)
    (by intro e he; fin_cases he <;> exact ⟨_, _, _, rfl⟩)

/-- A successful association-list lookup means the key is present. -/
theorem lookup_some_mem_keys {m : TagMap} {t : String} {n : Node}
    (h : m.lookup t = some n) : t ∈ m.map Prod.fst := by
  induction m with
  | nil => cases h
  | cons kv rest ih =>
      rcases kv with ⟨k, v⟩
      by_cases hk : t = k
      · subst hk; exact List.mem_cons_self _ _
      · have hne : (t == k) = false := beq_false_of_ne hk
        rw [List.lookup, hne] at h
        exact List.mem_cons_of_mem _ (ih h)

/-- A successful `from` resolution returns exactly the coordinate's bound
tag. -/
theorem resolveFrom_ok_tag {m : TagMap} {nodes : List Node} {e : EdgeStart}
    {n : Node} {tag : Option String}
    (h : resolveFrom m nodes e.coord = .ok (n, tag)) : tag = e.boundTag := by
  rcases hc : e.coord with ⟨x, y, t⟩ | ⟨x, y, t⟩ | t <;>
    rw [hc] at h <;> simp only [resolveFrom] at h
  · cases h; simp [EdgeStart.boundTag, hc]
  · cases h; simp [EdgeStart.boundTag, hc]
  · rcases hl : m.lookup t with _ | v <;> rw [hl] at h
    · cases h
    · cases h; simp [EdgeStart.boundTag, hc]

/-- Keys of the tag map after a successful pair walk: each key was either
already present or is bound by a `from` coordinate of some pair. -/
theorem resolvePairs_ok_keys :
    ∀ (ps : List (EdgeStart × EdgeStart)) (m : TagMap) (nodes : List Node)
      (acc : List (Edge Int)) (m' : TagMap) (acc' : List (Edge Int)),
      resolvePairs m nodes acc ps = .ok (m', acc') →
      ∀ k ∈ m'.map Prod.fst,
        k ∈ m.map Prod.fst ∨ k ∈ ps.filterMap (fun p => p.1.boundTag) := by
  intro ps
  induction ps with
  | nil =>
      intro m nodes acc m' acc' h k hk
      simp only [resolvePairs, Except.ok.injEq, Prod.mk.injEq] at h
      rw [← h.1] at hk
      exact Or.inl hk
  | cons p rest ih =>
      rcases p with ⟨a, b⟩
      intro m nodes acc m' acc' h k hk
      rcases hfrom : resolveFrom m nodes a.coord with u | fn
      · rw [resolvePairs, hfrom] at h; cases h
      · rcases fn with ⟨fromNode, tag⟩
        have htag := resolveFrom_ok_tag hfrom
        rcases tag with _ | tg
        · rcases hto : resolveTo m (nodes ++ [fromNode]) b.coord with u | toNode
          · rw [resolvePairs, hfrom] at h
            simp only [hto] at h
            cases h
          · rw [resolvePairs, hfrom] at h
            simp only [hto] at h
            rcases ih m (nodes ++ [fromNode]) _ m' acc' h k hk with hl | hr
            · exact Or.inl hl
            · obtain ⟨q, hq, hqt⟩ := List.mem_filterMap.mp hr
              exact Or.inr (List.mem_filterMap.mpr ⟨q, List.mem_cons_of_mem _ hq, hqt⟩)
        · rcases hto : resolveTo ((tg, fromNode) :: m) (nodes ++ [fromNode]) b.coord
            with u | toNode
          · rw [resolvePairs, hfrom] at h
            simp only [hto] at h
            cases h
          · rw [resolvePairs, hfrom] at h
            simp only [hto] at h
            rcases ih ((tg, fromNode) :: m) (nodes ++ [fromNode]) _ m' acc' h k hk
              with hl | hr
            · rcases List.mem_cons.mp hl with rfl | hl'
              · refine Or.inr (List.mem_filterMap.mpr ⟨(a, b), List.mem_cons_self _ _, ?_⟩)
                exact htag.symm
              · exact Or.inl hl'
            · obtain ⟨q, hq, hqt⟩ := List.mem_filterMap.mp hr
              exact Or.inr (List.mem_filterMap.mpr ⟨q, List.mem_cons_of_mem _ hq, hqt⟩)

/-- After a successful pair walk, every `Reference` occurring in a pair was
found: its tag was already in the map or is bound by some pair's `from`
coordinate. -/
theorem resolvePairs_ok_refs :
    ∀ (ps : List (EdgeStart × EdgeStart)) (m : TagMap) (nodes : List Node)
      (acc : List (Edge Int)) (r : TagMap × List (Edge Int)),
      resolvePairs m nodes acc ps = .ok r →
      ∀ p ∈ ps, ∀ t, (p.1.coord = .Reference t ∨ p.2.coord = .Reference t) →
        t ∈ m.map Prod.fst ∨ t ∈ ps.filterMap (fun q => q.1.boundTag) := by
  intro ps
  induction ps with
  | nil => intro m nodes acc r _ p hp; cases hp
  | cons pr rest ih =>
      rcases pr with ⟨a, b⟩
      intro m nodes acc r h p hp t href
      rcases hfrom : resolveFrom m nodes a.coord with u | fn
      · rw [resolvePairs, hfrom] at h; cases h
      rcases fn with ⟨fromNode, tag⟩
      have htag := resolveFrom_ok_tag hfrom
      rcases tag with _ | tg
      · rcases hto : resolveTo m (nodes ++ [fromNode]) b.coord with u | toNode
        · rw [resolvePairs, hfrom] at h
          simp only [hto] at h
          cases h
        · rw [resolvePairs, hfrom] at h
          simp only [hto] at h
          rcases List.mem_cons.mp hp with rfl | hp'
          · rcases href with ha | hb
            · rw [ha] at hfrom
              simp only [resolveFrom] at hfrom
              rcases hl : m.lookup t with _ | v <;> rw [hl] at hfrom
              · cases hfrom
              · exact Or.inl (lookup_some_mem_keys hl)
            · rw [hb] at hto
              simp only [resolveTo] at hto
              rcases hl : m.lookup t with _ | v <;> rw [hl] at hto
              · cases hto
              · exact Or.inl (lookup_some_mem_keys hl)
          · rcases ih m (nodes ++ [fromNode]) _ r h p hp' t href with hl | hr
            · exact Or.inl hl
            · obtain ⟨q, hq, hqt⟩ := List.mem_filterMap.mp hr
              exact Or.inr (List.mem_filterMap.mpr ⟨q, List.mem_cons_of_mem _ hq, hqt⟩)
      · rcases hto : resolveTo ((tg, fromNode) :: m) (nodes ++ [fromNode]) b.coord
          with u | toNode
        · rw [resolvePairs, hfrom] at h
          simp only [hto] at h
          cases h
        · rw [resolvePairs, hfrom] at h
          simp only [hto] at h
          rcases List.mem_cons.mp hp with rfl | hp'
          · rcases href with ha | hb
            · rw [ha] at hfrom
              simp only [resolveFrom] at hfrom
              rcases hl : m.lookup t with _ | v <;> rw [hl] at hfrom
              · cases hfrom
              · exact Or.inl (lookup_some_mem_keys hl)
            · rw [hb] at hto
              simp only [resolveTo] at hto
              rcases hl : ((tg, fromNode) :: m).lookup t with _ | v <;> rw [hl] at hto
              · cases hto
              · have hmem := lookup_some_mem_keys hl
                rcases List.mem_cons.mp hmem with rfl | hm'
                · exact Or.inr (List.mem_filterMap.mpr
                    ⟨(a, b), List.mem_cons_self _ _, htag.symm⟩)
                · exact Or.inl hm'
          · rcases ih ((tg, fromNode) :: m) (nodes ++ [fromNode]) _ r h p hp' t href
              with hl | hr
            · rcases List.mem_cons.mp hl with rfl | hm'
              · exact Or.inr (List.mem_filterMap.mpr
                  ⟨(a, b), List.mem_cons_self _ _, htag.symm⟩)
              · exact Or.inl hm'
            · obtain ⟨q, hq, hqt⟩ := List.mem_filterMap.mp hr
              exact Or.inr (List.mem_filterMap.mpr ⟨q, List.mem_cons_of_mem _ hq, hqt⟩)

/-- A failing pair walk fails on a `Reference` coordinate occurring in one
of the pairs, and the error carries that reference's tag. -/
theorem resolvePairs_error_ref :
    ∀ (ps : List (EdgeStart × EdgeStart)) (m : TagMap) (nodes : List Node)
      (acc : List (Edge Int)) (u : String),
      resolvePairs m nodes acc ps = .error u →
      ∃ p ∈ ps, p.1.coord = .Reference u ∨ p.2.coord = .Reference u := by
  intro ps
  induction ps with
  | nil => intro m nodes acc u h; cases h
  | cons pr rest ih =>
      rcases pr with ⟨a, b⟩
      intro m nodes acc u h
      rcases hfrom : resolveFrom m nodes a.coord with v | fn
      · rw [resolvePairs, hfrom] at h
        cases h
        rcases hc : a.coord with ⟨x, y, t⟩ | ⟨x, y, t⟩ | t <;> rw [hc] at hfrom <;>
          simp only [resolveFrom] at hfrom
        · cases hfrom
        · cases hfrom
        · rcases hl : m.lookup t with _ | w <;> rw [hl] at hfrom
          · cases hfrom
            exact ⟨(a, b), List.mem_cons_self _ _, Or.inl hc⟩
          · cases hfrom
      · rcases fn with ⟨fromNode, tag⟩
        rcases tag with _ | tg
        · rcases hto : resolveTo m (nodes ++ [fromNode]) b.coord with v | toNode
          · rw [resolvePairs, hfrom] at h
            simp only [hto] at h
            cases h
            rcases hc : b.coord with ⟨x, y, t⟩ | ⟨x, y, t⟩ | t <;> rw [hc] at hto <;>
              simp only [resolveTo] at hto
            · cases hto
            · cases hto
            · rcases hl : m.lookup t with _ | w <;> rw [hl] at hto
              · cases hto
                exact ⟨(a, b), List.mem_cons_self _ _, Or.inr hc⟩
              · cases hto
          · rw [resolvePairs, hfrom] at h
            simp only [hto] at h
            obtain ⟨p, hp, hpr⟩ := ih m (nodes ++ [fromNode]) _ u h
            exact ⟨p, List.mem_cons_of_mem _ hp, hpr⟩
        · rcases hto : resolveTo ((tg, fromNode) :: m) (nodes ++ [fromNode]) b.coord
            with v | toNode
          · rw [resolvePairs, hfrom] at h
            simp only [hto] at h
            cases h
            rcases hc : b.coord with ⟨x, y, t⟩ | ⟨x, y, t⟩ | t <;> rw [hc] at hto <;>
              simp only [resolveTo] at hto
            · cases hto
            · cases hto
            · rcases hl : ((tg, fromNode) :: m).lookup t with _ | w <;> rw [hl] at hto
              · cases hto
                exact ⟨(a, b), List.mem_cons_self _ _, Or.inr hc⟩
              · cases hto
          · rw [resolvePairs, hfrom] at h
            simp only [hto] at h
            obtain ⟨p, hp, hpr⟩ := ih ((tg, fromNode) :: m) (nodes ++ [fromNode]) _ u h
            exact ⟨p, List.mem_cons_of_mem _ hp, hpr⟩

/-- In a list of length at least two, every element occurs in some
consecutive pair of the `zip l l.tail` pairing. -/
theorem mem_zip_tail {α : Type} :
    ∀ (l : List α), 2 ≤ l.length → ∀ e ∈ l,
      ∃ p ∈ l.zip l.tail, p.1 = e ∨ p.2 = e := by
  intro l
  induction l with
  | nil => intro h; simp at h
  | cons a rest ih =>
      intro hlen e he
      rcases rest with _ | ⟨b, rest'⟩
      · simp at hlen
      · rcases List.mem_cons.mp he with rfl | he'
        · exact ⟨(e, b), List.mem_cons_self _ _, Or.inl rfl⟩
        · rcases rest' with _ | ⟨c, rest''⟩
          · have hb : e = b := by simpa using he'
            subst hb
            exact ⟨(a, e), List.mem_cons_self _ _, Or.inr rfl⟩
          · obtain ⟨p, hp, hpe⟩ := ih (by simp) e he'
            exact ⟨p, List.mem_cons_of_mem _ hp, hpe⟩

/-- After a successful whole-document walk, every `Reference` inside a
shape of at least two coordinates refers to a tag present initially or
bound somewhere in the document. -/
theorem resolveShapes_ok_refs :
    ∀ (shapes : List (List EdgeStart)) (m : TagMap) (bp : List (Shape Int))
      (r : TagMap × List (Shape Int)),
      resolveShapes m bp shapes = .ok r →
      ∀ s ∈ shapes, 2 ≤ s.length → ∀ e ∈ s, ∀ t, e.coord = .Reference t →
        t ∈ m.map Prod.fst ∨
          t ∈ shapes.flatMap (fun s' => s'.filterMap EdgeStart.boundTag) := by
  intro shapes
  induction shapes with
  | nil => intro m bp r _ s hs; cases hs
  | cons s₀ rest ih =>
      intro m bp r h s hs hlen e he t hc
      cases hemp : s₀.isEmpty with
      | true =>
          simp only [resolveShapes, hemp, if_true] at h
          rcases List.mem_cons.mp hs with rfl | hs'
          · have : s = [] := List.isEmpty_iff.mp hemp
            rw [this] at hlen
            simp at hlen
          · rcases ih m bp r h s hs' hlen e he t hc with hl | hr
            · exact Or.inl hl
            · obtain ⟨s', hsm, hmem⟩ := List.mem_flatMap.mp hr
              exact Or.inr (List.mem_flatMap.mpr ⟨s', List.mem_cons_of_mem _ hsm, hmem⟩)
      | false =>
          rcases hp : resolvePairs m [] [] (s₀.zip s₀.tail) with u | pr
          · simp only [resolveShapes, hemp, Bool.false_eq_true, if_false, hp] at h
            cases h
          · rcases pr with ⟨m₁, edges⟩
            simp only [resolveShapes, hemp, Bool.false_eq_true, if_false, hp] at h
            rcases List.mem_cons.mp hs with rfl | hs'
            · obtain ⟨p, hpmem, hpe⟩ := mem_zip_tail s hlen e he
              have href : p.1.coord = .Reference t ∨ p.2.coord = .Reference t := by
                rcases hpe with h1 | h2
                · exact Or.inl (by rw [h1]; exact hc)
                · exact Or.inr (by rw [h2]; exact hc)
              rcases resolvePairs_ok_refs _ m [] [] _ hp p hpmem t href with hl | hr
              · exact Or.inl hl
              · obtain ⟨q, hq, hqt⟩ := List.mem_filterMap.mp hr
                have hq1 : q.1 ∈ s := by
                  rcases q with ⟨q1, q2⟩
                  exact (List.of_mem_zip hq).1
                exact Or.inr (List.mem_flatMap.mpr ⟨s, List.mem_cons_self _ _,
                  List.mem_filterMap.mpr ⟨q.1, hq1, hqt⟩⟩)
            · rcases ih m₁ _ r h s hs' hlen e he t hc with hl | hr
              · rcases resolvePairs_ok_keys _ m [] [] m₁ edges hp t hl with hml | hmb
                · exact Or.inl hml
                · obtain ⟨q, hq, hqt⟩ := List.mem_filterMap.mp hmb
                  have hq1 : q.1 ∈ s₀ := by
                    rcases q with ⟨q1, q2⟩
                    exact (List.of_mem_zip hq).1
                  exact Or.inr (List.mem_flatMap.mpr ⟨s₀, List.mem_cons_self _ _,
                    List.mem_filterMap.mpr ⟨q.1, hq1, hqt⟩⟩)
              · obtain ⟨s', hsm, hmem⟩ := List.mem_flatMap.mp hr
                exact Or.inr (List.mem_flatMap.mpr ⟨s', List.mem_cons_of_mem _ hsm, hmem⟩)

/-- A failing whole-document walk reports the tag of a `Reference`
coordinate occurring in the document. -/
theorem resolveShapes_error_ref :
    ∀ (shapes : List (List EdgeStart)) (m : TagMap) (bp : List (Shape Int)) (u : String),
      resolveShapes m bp shapes = .error u →
      u ∈ shapes.flatMap (fun s => s.filterMap EdgeStart.refTag) := by
  intro shapes
  induction shapes with
  | nil => intro m bp u h; cases h
  | cons s₀ rest ih =>
      intro m bp u h
      cases hemp : s₀.isEmpty with
      | true =>
          simp only [resolveShapes, hemp, if_true] at h
          obtain ⟨s', hsm, hmem⟩ := List.mem_flatMap.mp (ih m bp u h)
          exact List.mem_flatMap.mpr ⟨s', List.mem_cons_of_mem _ hsm, hmem⟩
      | false =>
          rcases hp : resolvePairs m [] [] (s₀.zip s₀.tail) with v | pr
          · simp only [resolveShapes, hemp, Bool.false_eq_true, if_false, hp] at h
            cases h
            obtain ⟨p, hpmem, hpr⟩ := resolvePairs_error_ref _ m [] [] u hp
            have hmem : ∃ e ∈ s₀, e.refTag = some u := by
              rcases p with ⟨p1, p2⟩
              have hz := List.of_mem_zip hpmem
              rcases hpr with h1 | h2
              · refine ⟨p1, hz.1, ?_⟩
                rw [EdgeStart.refTag, show p1.coord = Coord.Reference u from h1]
              · refine ⟨p2, List.tail_subset _ hz.2, ?_⟩
                rw [EdgeStart.refTag, show p2.coord = Coord.Reference u from h2]
            exact List.mem_flatMap.mpr ⟨s₀, List.mem_cons_self _ _,
              List.mem_filterMap.mpr hmem⟩
          · rcases pr with ⟨m₁, edges⟩
            simp only [resolveShapes, hemp, Bool.false_eq_true, if_false, hp] at h
            obtain ⟨s', hsm, hmem⟩ := List.mem_flatMap.mp (ih m₁ _ u h)
            exact List.mem_flatMap.mpr ⟨s', List.mem_cons_of_mem _ hsm, hmem⟩

/-- A pair walk with no `Reference` coordinate cannot fail. -/
theorem resolvePairs_no_ref :
    ∀ (ps : List (EdgeStart × EdgeStart)) (m : TagMap) (nodes : List Node)
      (acc : List (Edge Int)),
      (∀ p ∈ ps, (∀ t, p.1.coord ≠ .Reference t) ∧ (∀ t, p.2.coord ≠ .Reference t)) →
      ∃ r, resolvePairs m nodes acc ps = .ok r := by
  intro ps
  induction ps with
  | nil => intro m nodes acc _; exact ⟨(m, acc), rfl⟩
  | cons pr rest ih =>
      rcases pr with ⟨a, b⟩
      intro m nodes acc h
      have hab := h (a, b) (List.mem_cons_self _ _)
      have hrest : ∀ p ∈ rest, (∀ t, p.1.coord ≠ .Reference t) ∧
          (∀ t, p.2.coord ≠ .Reference t) :=
        fun p hp => h p (List.mem_cons_of_mem _ hp)
      rcases hfrom : resolveFrom m nodes a.coord with v | fn
      · exfalso
        rcases hc : a.coord with ⟨x, y, t⟩ | ⟨x, y, t⟩ | t <;> rw [hc] at hfrom <;>
          simp only [resolveFrom] at hfrom
        · cases hfrom
        · cases hfrom
        · exact hab.1 t hc
      · rcases fn with ⟨fromNode, tag⟩
        rcases tag with _ | tg
        · rcases hto : resolveTo m (nodes ++ [fromNode]) b.coord with v | toNode
          · exfalso
            rcases hc : b.coord with ⟨x, y, t⟩ | ⟨x, y, t⟩ | t <;> rw [hc] at hto <;>
              simp only [resolveTo] at hto
            · cases hto
            · cases hto
            · exact hab.2 t hc
          · obtain ⟨r, hr⟩ := ih m (nodes ++ [fromNode])
              (acc ++ [Edge.new fromNode.point.x fromNode.point.y toNode.point.x
                toNode.point.y (edgeColor a.attributes)]) hrest
            refine ⟨r, ?_⟩
            rw [resolvePairs, hfrom]
            simp only [hto]
            exact hr
        · rcases hto : resolveTo ((tg, fromNode) :: m) (nodes ++ [fromNode]) b.coord
            with v | toNode
          · exfalso
            rcases hc : b.coord with ⟨x, y, t⟩ | ⟨x, y, t⟩ | t <;> rw [hc] at hto <;>
              simp only [resolveTo] at hto
            · cases hto
            · cases hto
            · exact hab.2 t hc
          · obtain ⟨r, hr⟩ := ih ((tg, fromNode) :: m) (nodes ++ [fromNode])
              (acc ++ [Edge.new fromNode.point.x fromNode.point.y toNode.point.x
                toNode.point.y (edgeColor a.attributes)]) hrest
            refine ⟨r, ?_⟩
            rw [resolvePairs, hfrom]
            simp only [hto]
            exact hr

/-- A document with no `Reference` coordinate always resolves. -/
theorem resolveShapes_no_ref :
    ∀ (shapes : List (List EdgeStart)) (m : TagMap) (bp : List (Shape Int)),
      (∀ s ∈ shapes, ∀ e ∈ s, ∀ t, e.coord ≠ .Reference t) →
      ∃ r, resolveShapes m bp shapes = .ok r := by
  intro shapes
  induction shapes with
  | nil => intro m bp _; exact ⟨(m, bp), rfl⟩
  | cons s₀ rest ih =>
      intro m bp h
      have hrest : ∀ s ∈ rest, ∀ e ∈ s, ∀ t, e.coord ≠ .Reference t :=
        fun s hs => h s (List.mem_cons_of_mem _ hs)
      cases hemp : s₀.isEmpty with
      | true =>
          obtain ⟨r, hr⟩ := ih m bp hrest
          refine ⟨r, ?_⟩
          simp only [resolveShapes, hemp, if_true]
          exact hr
      | false =>
          have hpairs : ∀ p ∈ s₀.zip s₀.tail,
              (∀ t, p.1.coord ≠ .Reference t) ∧ (∀ t, p.2.coord ≠ .Reference t) := by
            intro p hp
            rcases p with ⟨p1, p2⟩
            have hz := List.of_mem_zip hp
            exact ⟨h s₀ (List.mem_cons_self _ _) p1 hz.1,
              h s₀ (List.mem_cons_self _ _) p2 (List.tail_subset _ hz.2)⟩
          obtain ⟨⟨m₁, edges⟩, hp⟩ := resolvePairs_no_ref _ m [] [] hpairs
          obtain ⟨r, hr⟩ := ih m₁ (bp ++ [⟨edges⟩]) hrest
          refine ⟨r, ?_⟩
          simp only [resolveShapes, hemp, Bool.false_eq_true, if_false, hp]
          exact hr

/-- C2 counterexample: the document `shape { @#missing }` contains a
`Reference` to the tag `missing`, which is never bound anywhere in the
document, yet resolution does **not** fail — a one-coordinate shape is
never paired by the `zip` with its tail, so its reference is never looked
up, and a Blueprint (with one empty shape) is produced. -/
theorem c2_counterexample :
    docRefTags [[⟨.Reference missingTag, []⟩]] = [missingTag] ∧
    docBoundTags [[⟨.Reference missingTag, []⟩]] = [] ∧
    resolveDoc [[⟨.Reference missingTag, []⟩]] = .ok ⟨[⟨[]⟩]⟩ :=
  ⟨rfl, rfl, rfl⟩

/-- C2 (amended): if some shape with at least two coordinates contains a
`Reference` whose tag is never bound anywhere in the document, resolution
fails fatally — no Blueprint is produced — and the reported error names a
tag referenced in the document; and a document containing no `Reference`
coordinate at all is never aborted by the resolver. -/
theorem c2_unbound_reference :
    (∀ doc : List (List EdgeStart),
      (∃ s ∈ doc, 2 ≤ s.length ∧ ∃ e ∈ s, ∃ t, e.coord = .Reference t ∧
        t ∉ docBoundTags doc) →
      ∃ u, resolveDoc doc = .error u ∧ u ∈ docRefTags doc) ∧
    (∀ doc : List (List EdgeStart),
      (∀ s ∈ doc, ∀ e ∈ s, ∀ t, e.coord ≠ .Reference t) →
      ∃ bp, resolveDoc doc = .ok bp) := by
  constructor
  · intro doc hbad
    obtain ⟨s, hs, hlen, e, he, t, hc, hnb⟩ := hbad
    rcases h : resolveShapes [] [] doc with u | r
    · refine ⟨u, ?_, ?_⟩
      · rw [resolveDoc, h]
        rfl
      · exact resolveShapes_error_ref doc [] [] u h
    · exfalso
      rcases resolveShapes_ok_refs doc [] [] r h s hs hlen e he t hc with hl | hr
      · simp at hl
      · exact hnb hr
  · intro doc hnone
    obtain ⟨⟨m', shapes'⟩, hok⟩ := resolveShapes_no_ref doc [] [] hnone
    exact ⟨⟨shapes'⟩, by rw [resolveDoc, hok]; rfl⟩

/-- Witness for C2: the document `shape { @#t 1,1 }` (unbound reference in a
two-coordinate shape) aborts with a referenced tag, and the reference-free
document `shape { @0,0 @1,1 }` resolves. -/
theorem c2_unbound_reference_witness :
    (∃ u, resolveDoc [[⟨.Reference tTag, []⟩, ⟨.Absolute 1 1 none, []⟩]] = .error u ∧
      u ∈ docRefTags [[⟨.Reference tTag, []⟩, ⟨.Absolute 1 1 none, []⟩]]) ∧
    (∃ bp, resolveDoc [[⟨.Absolute 0 0 none, []⟩, ⟨.Absolute 1 1 none, []⟩]] = .ok bp) := by
  constructor
  · refine c2_unbound_reference.1 _
      ⟨[⟨.Reference tTag, []⟩, ⟨.Absolute 1 1 none, []⟩], List.mem_cons_self _ _,
        by decide, ⟨.Reference tTag, []⟩, List.mem_cons_self _ _, tTag, rfl, by decide⟩
  · refine c2_unbound_reference.2 _ ?_
    intro s hs e he t hc
    fin_cases hs
    fin_cases he <;> simp at hc

end Blueprintlib
